import Mathlib

/-
  Verification development for the engine-sound spectral filtering pipeline
  (make_engine_filtered_fft.py, present in two copies:
  audio-assets/engine/ and build/audio/).

  The Python/numpy program is shallowly embedded below.  Time-domain
  stages (fades, loudness normalization, PCM quantization) are elementwise
  field arithmetic, so they are stated over an arbitrary linear ordered
  field; the spectral stages (filter curve, FFT) use `ℝ` and `ℂ`.
  numpy float arithmetic is idealized as exact field arithmetic.
-/

namespace EngineFFT

section TimeDomain

variable {α : Type} [LinearOrderedField α]

/-- The mean `np.mean(x)`: the arithmetic mean, sum divided by length. -/
def mean (x : List α) : α := x.sum / (x.length : α)

/-- The window length `fade_len = int(sr * 0.003)` from step 7 of `main`: truncation of
`sr * 0.003` toward zero, which for a nonnegative sample rate is
`⌊3 * sr / 1000⌋`, written on `ℕ` with natural division. -/
def fadeLen (sr : ℕ) : ℕ := 3 * sr / 1000

/-- The ramp `np.linspace(a, b, num)`: `num` evenly spaced points from `a` to `b`,
endpoints inclusive, element `i` being `a + (b - a) * i / (num - 1)`.
numpy special-cases `num = 1` to `[a]` (and `num = 0` to `[]`); with
Lean's total division (`x / 0 = 0`) the closed formula already yields
`a` at `num = 1` and the empty list at `num = 0`, so no branch is needed. -/
def linspace (a b : α) (num : ℕ) : List α :=
  (List.range num).map (fun i : ℕ => a + (b - a) * (i : α) / ((num : α) - 1))

/-- The in-place slice product `y[:k] *= env` of numpy.  The slice
`y[:k]` has `min k (len y)` elements; the elementwise product is defined
exactly when that length equals the length of `env`, otherwise numpy
raises a broadcasting error, modelled as `none`. -/
def mulSliceHead (k : ℕ) (env y : List α) : Option (List α) :=
  if (y.take k).length = env.length then
    some (List.zipWith (· * ·) (y.take k) env ++ y.drop k)
  else none

/-- The in-place slice product `y[-k:] *= env` of numpy.  Python slice
semantics: for `k > 0`, `y[-k:]` is the last `min k (len y)` elements,
but for `k = 0` the slice `y[-0:]` is `y[0:]`, the whole list.  The
product is defined exactly when the slice length equals the length of
`env`, otherwise numpy raises a broadcasting error, modelled as `none`. -/
def mulSliceTailNeg (k : ℕ) (env y : List α) : Option (List α) :=
  if (y.drop (if k = 0 then 0 else y.length - min k y.length)).length = env.length then
    some (y.take (if k = 0 then 0 else y.length - min k y.length) ++
      List.zipWith (· * ·) (y.drop (if k = 0 then 0 else y.length - min k y.length)) env)
  else none

/-- Step 7 of `main` (Boundary Smoother):
`fade_len = int(sr * 0.003)`; `fade_in = np.linspace(0, 1, fade_len)`;
`fade_out = np.linspace(1, 0, fade_len)`; `y[:fade_len] *= fade_in`;
`y[-fade_len:] *= fade_out`.  `none` models a numpy shape-mismatch
error aborting the run. -/
def boundarySmooth (sr : ℕ) (y : List α) : Option (List α) :=
  match mulSliceHead (fadeLen sr) (linspace 0 1 (fadeLen sr)) y with
  | none => none
  | some y1 => mulSliceTailNeg (fadeLen sr) (linspace 1 0 (fadeLen sr)) y1

/-- Specification-side description of the boundary smoother's output
(used to state the amended form of the fade claim): sample `i` is
multiplied by the fade-in gain `i / (fade_len - 1)` when `i < fade_len`
and by the fade-out gain `1 - (i - (length - fade_len)) / (fade_len - 1)`
when `i` lies in the last `fade_len` positions; in an overlap both
factors apply.  (With Lean's total division the formulas also cover
`fade_len = 1`, where numpy's ramps are `[0.0]` and `[1.0]`.) -/
def fadeSpec (sr : ℕ) (y : List α) : List α :=
  (List.range y.length).map (fun i =>
    y.getD i 0
      * (if i < fadeLen sr then (i : α) / ((fadeLen sr : α) - 1) else 1)
      * (if y.length - fadeLen sr ≤ i then
            1 - ((i - (y.length - fadeLen sr) : ℕ) : α) / ((fadeLen sr : α) - 1)
          else 1))

/-- The maximum `peak = np.max(np.abs(y))` from step 8 of `main`.  Folded with seed 0,
which is neutral for a nonempty list since every `|a|` is nonnegative
(numpy's `max` of an empty array would error; the loaded buffer is
nonempty). -/
def peak (y : List α) : α := (y.map (fun a => |a|)).foldr max 0

/-- Step 8 of `main` (Loudness Normalizer):
`if peak > 0: y = y * (0.98 / peak)`, else `y` unchanged. -/
def normalize (y : List α) : List α :=
  if 0 < peak y then y.map (fun a => a * (98 / 100 / peak y)) else y

/-- The per-sample conversion in step 9 of `main`:
`(y * 32767.0).astype(np.int16)`.  numpy's float-to-integer `astype`
is the C cast, truncation toward zero: `⌊v⌋` for `v ≥ 0`, `⌈v⌉` for
`v < 0` (no wraparound occurs for the in-range values produced after
normalization). -/
def toInt16 [FloorRing α] (a : α) : ℤ :=
  if 0 ≤ a then ⌊a * 32767⌋ else ⌈a * 32767⌉

end TimeDomain

section Spectral

/-- The constant `fc = 300.0`, the fixed cutoff frequency (step 5 of `main`). -/
noncomputable def fc : ℝ := 300

/-- The constant `n = 4`, the fixed filter order (step 5 of `main`). -/
def filterOrder : ℕ := 4

/-- The frequency map `freqs = rfftfreq(len(x), 1/sr)`: bin `k` has center frequency
`k * sr / N` Hz for an `N`-sample buffer. -/
noncomputable def freqs (N sr : ℕ) (k : ℕ) : ℝ := (k : ℝ) * (sr : ℝ) / (N : ℝ)

/-- The pointwise gain formula applied to every nonzero bin in step 5:
`1.0 / np.sqrt(1 + (fc / f)**(2*n))`. -/
noncomputable def gainAt (f : ℝ) : ℝ :=
  1 / Real.sqrt (1 + (fc / f) ^ (2 * filterOrder))

/-- The filter curve of step 5: `H = np.zeros_like(freqs)` followed by
`H[1:] = 1.0 / np.sqrt(1 + (fc / freqs[1:])**(2*n))`, i.e. bin 0 keeps
gain 0 and every later bin gets the Butterworth-style magnitude. -/
noncomputable def H (N sr : ℕ) (k : ℕ) : ℝ :=
  if k = 0 then 0 else gainAt (freqs N sr k)

/-- The spectrum `X = rfft(x)`: coefficient `k` of the real-input discrete Fourier
transform of the buffer `x`. -/
noncomputable def rfft (x : List ℝ) (k : ℕ) : ℂ :=
  ∑ j ∈ Finset.range x.length,
    ((x.getD j 0 : ℝ) : ℂ) *
      Complex.exp (-(2 * Real.pi * Complex.I * (j : ℕ) * (k : ℕ)) / (x.length : ℂ))

/-- The resynthesis `y = irfft(Y, n)`: inverse real FFT producing exactly `n` time-domain
samples, reconstructing the negative-frequency half of the spectrum by
conjugate symmetry. -/
noncomputable def irfft (Y : ℕ → ℂ) (n : ℕ) : List ℝ :=
  (List.range n).map (fun j =>
    ((1 / (n : ℂ)) * ∑ k ∈ Finset.range n,
      (if k ≤ n / 2 then Y k else (starRingEnd ℂ) (Y (n - k))) *
        Complex.exp (2 * Real.pi * Complex.I * (j : ℕ) * (k : ℕ) / (n : ℂ))).re)

/-- Step 5's attenuation `Y = X * H`: spectral coefficient `k` of the
post-filter spectrum of buffer `x` at sample rate `sr` (the frequency
map is built from `len(x)` as in the source). -/
noncomputable def attenuated (sr : ℕ) (x : List ℝ) (k : ℕ) : ℂ :=
  rfft x k * ((H x.length sr k : ℝ) : ℂ)

end Spectral

section Program

/-- Observable outcome of one run of `main`: the process exit code, the
output file written by `wavfile.write` (path, sample rate, samples), if
any, the lines printed to standard output, and the two diagnostic values
(loop-boundary mismatch in counts, achieved peak level as a fraction). -/
structure RunResult where
  exit : ℕ
  written : Option (String × ℕ × List ℤ)
  stdout : List String
  diagMismatch : Option ℤ
  diagPeak : Option ℝ

/-- The usage line printed when fewer than two path arguments are given. -/
def usageMsg : String := "Usage: make_engine_filtered_fft.py <input_wav> <output_wav>"

/-- Steps 2–6 of `main` in `audio-assets/engine/make_engine_filtered_fft.py`:
int16 data scaled by `1/32768.0`, mean-subtracted, transformed, attenuated
by the filter curve and inverse-transformed back to `len(x)` samples. -/
noncomputable def pipelineY (sr : ℕ) (data : List ℤ) : List ℝ :=
  let x0 : List ℝ := data.map (fun d : ℤ => (d : ℝ) / 32768)
  let x : List ℝ := x0.map (fun v => v - mean x0)
  irfft (fun k => attenuated sr x k) x.length

/-- Steps 2–6 of `main` in `build/audio/make_engine_filtered_fft.py`
(same statements as the engine copy; the files differ only in comments). -/
noncomputable def pipelineYBuild (sr : ℕ) (data : List ℤ) : List ℝ :=
  let x0 : List ℝ := data.map (fun d : ℤ => (d : ℝ) / 32768)
  let x : List ℝ := x0.map (fun v => v - mean x0)
  irfft (fun k => attenuated sr x k) x.length

/-- The function `main` of `audio-assets/engine/make_engine_filtered_fft.py`, as a
function of the full argument vector `argv` (element 0 is the program
name) and of the result of `wavfile.read` on the input path — `.error`
models any read failure (missing file, unreadable, malformed container),
which in the source is an uncaught exception: exit status 1, nothing
written.  A `none` from the boundary smoother is likewise an uncaught
numpy broadcasting error.  Falling off the end of `main` exits 0. -/
noncomputable def mainEngine (argv : List String)
    (wav : Except String (ℕ × List ℤ)) : RunResult :=
  if argv.length < 3 then
    { exit := 1, written := none, stdout := [usageMsg],
      diagMismatch := none, diagPeak := none }
  else
    match wav with
    | .error _ =>
      { exit := 1, written := none, stdout := [],
        diagMismatch := none, diagPeak := none }
    | .ok (sr, data) =>
      match boundarySmooth sr (pipelineY sr data) with
      | none =>
        { exit := 1, written := none, stdout := [],
          diagMismatch := none, diagPeak := none }
      | some yf =>
        let yn := normalize yf
        let out := yn.map (fun v => toInt16 v)
        { exit := 0,
          written := some (argv.getD 2 "", sr, out),
          stdout := ["✓ Generated " ++ argv.getD 2 ""],
          diagMismatch := some |out.headD 0 - out.getLastD 0|,
          diagPeak := some (peak yn * 100) }

/-- The function `main` of `build/audio/make_engine_filtered_fft.py`, transcribed
independently from that file (its statements are the same as the
engine copy's; the files differ only in comments). -/
noncomputable def mainBuild (argv : List String)
    (wav : Except String (ℕ × List ℤ)) : RunResult :=
  if argv.length < 3 then
    { exit := 1, written := none, stdout := [usageMsg],
      diagMismatch := none, diagPeak := none }
  else
    match wav with
    | .error _ =>
      { exit := 1, written := none, stdout := [],
        diagMismatch := none, diagPeak := none }
    | .ok (sr, data) =>
      match boundarySmooth sr (pipelineYBuild sr data) with
      | none =>
        { exit := 1, written := none, stdout := [],
          diagMismatch := none, diagPeak := none }
      | some yf =>
        let yn := normalize yf
        let out := yn.map (fun v => toInt16 v)
        { exit := 0,
          written := some (argv.getD 2 "", sr, out),
          stdout := ["✓ Generated " ++ argv.getD 2 ""],
          diagMismatch := some |out.headD 0 - out.getLastD 0|,
          diagPeak := some (peak yn * 100) }

end Program

end EngineFFT

namespace EngineFFT

/-! ## Claim theorems -/

/-- C1: for every frequency map produced from an `N`-sample buffer, the
filter curve `H` assigns gain exactly 0 to bin 0, and to every bin
`k > 0` with center frequency `f` assigns `1 / sqrt (1 + (fc / f)^(2n))`
with the fixed constants `fc = 300.0` and `n = 4`. -/
theorem filter_curve_values (N sr : ℕ) :
    H N sr 0 = 0 ∧
    ∀ k, 0 < k → ∀ f, f = freqs N sr k →
      H N sr k = 1 / Real.sqrt (1 + (300 / f) ^ (2 * 4)) := by
  refine ⟨if_pos rfl, ?_⟩
  intro k hk f hf
  subst hf
  simp [H, gainAt, fc, filterOrder, hk.ne']

/-- Witness for C1 at the concrete bin 1 of an 8-sample, 1000 Hz buffer. -/
theorem filter_curve_values_witness :
    H 8 1000 0 = 0 ∧
    H 8 1000 1 = 1 / Real.sqrt (1 + (300 / freqs 8 1000 1) ^ (2 * 4)) :=
  ⟨(filter_curve_values 8 1000).1,
   (filter_curve_values 8 1000).2 1 (by decide) (freqs 8 1000 1) rfl⟩

/-- C2: for every input buffer, the bin-0 coefficient of the post-filter
spectrum `Y = X * H` is exactly 0, hence has zero magnitude. -/
theorem dc_bin_rejected (sr : ℕ) (x : List ℝ) :
    attenuated sr x 0 = 0 ∧ Complex.abs (attenuated sr x 0) = 0 := by
  have h : attenuated sr x 0 = 0 := by simp [attenuated, H]
  exact ⟨h, by rw [h]; simp⟩

/-- C4 fails as stated: the encoder `(y * 32767.0).astype(np.int16)`
truncates toward zero, so at the in-range sample `y = 9/327670`
(where `y * 32767 = 9/10`) it produces 0 while `round` gives 1. -/
theorem pcm_round_counterexample :
    toInt16 ((9 / 327670 : ℚ)) ≠ round ((9 / 327670 : ℚ) * 32767) := by
  have h1 : toInt16 ((9 / 327670 : ℚ)) = 0 := by
    rw [toInt16, if_pos (by norm_num)]
    norm_num
  have h2 : round ((9 / 327670 : ℚ) * 32767) = 1 := by
    rw [round_eq]
    norm_num
  rw [h1, h2]
  decide

/-- C4 (amended): the PCM encoder converts each sample `y` to the integer
`y * 32767` truncated toward zero — the integer within distance 1 of
`y * 32767` whose magnitude does not exceed it — which for every `y` in
the post-normalization range `|y| ≤ 0.98` lies within the 16-bit signed
range. -/
theorem pcm_encoder_truncates {α : Type} [LinearOrderedField α] [FloorRing α]
    (y : α) (h : |y| ≤ 98 / 100) :
    (-32767 ≤ toInt16 y ∧ toInt16 y ≤ 32767) ∧
    |(toInt16 y : α) - y * 32767| < 1 ∧
    |(toInt16 y : α)| ≤ |y * 32767| := by
  obtain ⟨hl, hu⟩ := abs_le.mp h
  by_cases hy : 0 ≤ y
  · rw [toInt16, if_pos hy]
    have hv0 : (0 : α) ≤ y * 32767 := mul_nonneg hy (by norm_num)
    have hfl : ((⌊y * 32767⌋ : ℤ) : α) ≤ y * 32767 := Int.floor_le _
    have hfl2 : y * 32767 - 1 < ((⌊y * 32767⌋ : ℤ) : α) := Int.sub_one_lt_floor _
    have hub : y * 32767 ≤ (98 / 100 : α) * 32767 :=
      mul_le_mul_of_nonneg_right hu (by norm_num)
    have hge0 : (0 : ℤ) ≤ ⌊y * 32767⌋ := Int.le_floor.mpr (by push_cast; exact hv0)
    have hlt : ⌊y * 32767⌋ < 32768 := Int.floor_lt.mpr (by push_cast; linarith)
    have hfl0 : (0 : α) ≤ ((⌊y * 32767⌋ : ℤ) : α) := by exact_mod_cast hge0
    refine ⟨⟨by omega, by omega⟩, ?_, ?_⟩
    · rw [abs_lt]; constructor <;> linarith
    · rw [abs_of_nonneg hfl0, abs_of_nonneg hv0]; exact hfl
  · push_neg at hy
    rw [toInt16, if_neg (not_le.mpr hy)]
    have hv0 : y * 32767 ≤ 0 := by nlinarith
    have hcl : y * 32767 ≤ ((⌈y * 32767⌉ : ℤ) : α) := Int.le_ceil _
    have hcl2 : ((⌈y * 32767⌉ : ℤ) : α) < y * 32767 + 1 := Int.ceil_lt_add_one _
    have hlb : (-(98 / 100) : α) * 32767 ≤ y * 32767 :=
      mul_le_mul_of_nonneg_right hl (by norm_num)
    have hle0 : ⌈y * 32767⌉ ≤ 0 := Int.ceil_le.mpr (by push_cast; exact hv0)
    have hgt : (-32768 : ℤ) < ⌈y * 32767⌉ := Int.lt_ceil.mpr (by push_cast; linarith)
    have hcl0 : ((⌈y * 32767⌉ : ℤ) : α) ≤ 0 := by exact_mod_cast hle0
    refine ⟨⟨by omega, by omega⟩, ?_, ?_⟩
    · rw [abs_lt]; constructor <;> linarith
    · rw [abs_of_nonpos hcl0, abs_of_nonpos hv0]
      exact neg_le_neg hcl

/-- Witness for C4's amended theorem at the concrete sample `y = 1/2`. -/
theorem pcm_encoder_truncates_witness :
    |((1 : ℚ) / 2)| ≤ 98 / 100 ∧
    ((-32767 ≤ toInt16 ((1 : ℚ) / 2) ∧ toInt16 ((1 : ℚ) / 2) ≤ 32767) ∧
     |((toInt16 ((1 : ℚ) / 2) : ℤ) : ℚ) - (1 : ℚ) / 2 * 32767| < 1 ∧
     |((toInt16 ((1 : ℚ) / 2) : ℤ) : ℚ)| ≤ |(1 : ℚ) / 2 * 32767|) :=
  ⟨by rw [abs_of_nonneg (by norm_num : (0 : ℚ) ≤ 1 / 2)]; norm_num,
   pcm_encoder_truncates ((1 : ℚ) / 2)
     (by rw [abs_of_nonneg (by norm_num : (0 : ℚ) ≤ 1 / 2)]; norm_num)⟩

/-- C7: an invocation with fewer than two path arguments (full `argv`
shorter than three entries, the first being the program name) prints the
usage line, exits with code 1 and writes no output file; any invocation
that writes its output (completes normally) exits with code 0. -/
theorem usage_error_spec (argv : List String) (wav : Except String (ℕ × List ℤ)) :
    (argv.length < 3 →
      mainEngine argv wav =
        { exit := 1, written := none, stdout := [usageMsg],
          diagMismatch := none, diagPeak := none }) ∧
    ((mainEngine argv wav).written.isSome → (mainEngine argv wav).exit = 0) := by
  constructor
  · intro h
    simp [mainEngine, h]
  · intro h
    by_cases h3 : argv.length < 3
    · simp [mainEngine, h3] at h
    · cases wav with
      | error e => simp [mainEngine, h3] at h
      | ok p =>
        obtain ⟨sr, data⟩ := p
        simp only [mainEngine, if_neg h3] at h ⊢
        cases hb : boundarySmooth sr (pipelineY sr data) with
        | none => rw [hb] at h; simp at h
        | some yf => rfl

/-- Witness for C7 at the one-argument vector `["prog"]`. -/
theorem usage_error_spec_witness :
    (["prog"] : List String).length < 3 ∧
    mainEngine ["prog"] (.error "no input") =
      { exit := 1, written := none, stdout := [usageMsg],
        diagMismatch := none, diagPeak := none } :=
  ⟨by decide, (usage_error_spec ["prog"] (.error "no input")).1 (by decide)⟩

/-- C8: when reading the input fails (missing, unreadable or malformed
file, modelled by `wavfile.read` returning an error), the run exits with
the non-zero status 1 and no output file is written — the error branch
returns before any transform stage is reached. -/
theorem resource_error_spec (argv : List String) (e : String)
    (h : 3 ≤ argv.length) :
    (mainEngine argv (.error e)).exit = 1 ∧
    (mainEngine argv (.error e)).written = none := by
  have h3 : ¬ argv.length < 3 := not_lt.mpr h
  simp [mainEngine, h3]

/-- Witness for C8 at a concrete three-entry argument vector. -/
theorem resource_error_spec_witness :
    3 ≤ (["prog", "in.wav", "out.wav"] : List String).length ∧
    (mainEngine ["prog", "in.wav", "out.wav"] (.error "missing")).exit = 1 ∧
    (mainEngine ["prog", "in.wav", "out.wav"] (.error "missing")).written = none :=
  ⟨by decide, resource_error_spec ["prog", "in.wav", "out.wav"] "missing" (by decide)⟩

/-- C10: the two source copies (audio-assets/engine and build/audio) are
extensionally equivalent — on every argument vector and every read
result, both `main` transcriptions produce the same `RunResult` (output
samples, exit status, diagnostics). -/
theorem copies_equivalent :
    ∀ (argv : List String) (wav : Except String (ℕ × List ℤ)),
      mainEngine argv wav = mainBuild argv wav :=
  fun _ _ => rfl

end EngineFFT

namespace EngineFFT

/-! ## Loudness normalizer (C3) -/

/-- The function `peak` of a cons is the max of the head's absolute value and the
`peak` of the tail. -/
theorem peak_cons {α : Type} [LinearOrderedField α] (a : α) (t : List α) :
    peak (a :: t) = max |a| (peak t) := by
  simp [peak]

/-- The folded peak is never negative. -/
theorem peak_nonneg {α : Type} [LinearOrderedField α] (y : List α) :
    0 ≤ peak y := by
  induction y with
  | nil => simp [peak]
  | cons a t ih => rw [peak_cons]; exact le_max_of_le_right ih

/-- Scaling every sample by a nonnegative constant scales the peak. -/
theorem peak_map_mul {α : Type} [LinearOrderedField α] (y : List α) (c : α)
    (hc : 0 ≤ c) :
    peak (y.map (fun a => a * c)) = peak y * c := by
  induction y with
  | nil => simp [peak]
  | cons a t ih =>
    rw [List.map_cons, peak_cons, peak_cons, ih, abs_mul, abs_of_nonneg hc,
      max_mul_of_nonneg _ _ hc]

/-- C3: when the pre-normalization peak is positive, the normalizer
multiplies every sample by `0.98 / peak`, the resulting peak is exactly
`0.98` and every sample keeps its sign; a buffer with peak 0 is returned
unchanged. -/
theorem loudness_normalizer_spec {α : Type} [LinearOrderedField α] (y : List α) :
    (0 < peak y →
      normalize y = y.map (fun a => a * (98 / 100 / peak y)) ∧
      peak (normalize y) = 98 / 100 ∧
      List.Forall₂ (fun a b => (0 < a ↔ 0 < b) ∧ (a < 0 ↔ b < 0) ∧ (a = 0 ↔ b = 0))
        y (normalize y)) ∧
    (peak y = 0 → normalize y = y) := by
  constructor
  · intro hp
    have hc : 0 < 98 / 100 / peak y := by positivity
    refine ⟨if_pos hp, ?_, ?_⟩
    · rw [normalize, if_pos hp, peak_map_mul _ _ hc.le]
      field_simp
      ring
    · rw [normalize, if_pos hp, List.forall₂_map_right_iff, List.forall₂_same]
      intro a _
      refine ⟨⟨fun h => mul_pos h hc, fun h => ?_⟩,
              ⟨fun h => mul_neg_of_neg_of_pos h hc, fun h => ?_⟩,
              ⟨fun h => by rw [h, zero_mul], fun h => ?_⟩⟩
      · by_contra hna
        push_neg at hna
        exact absurd (mul_nonpos_of_nonpos_of_nonneg hna hc.le) (not_le.mpr h)
      · by_contra hna
        push_neg at hna
        exact absurd (mul_nonneg hna hc.le) (not_le.mpr h)
      · rcases mul_eq_zero.mp h with h' | h'
        · exact h'
        · exact absurd h' hc.ne'
  · intro hp
    rw [normalize, if_neg (by rw [hp]; exact lt_irrefl 0)]

/-- Witness for C3 at the concrete buffer `[2, -1]` over `ℚ`. -/
theorem loudness_normalizer_spec_witness :
    0 < peak ([2, -1] : List ℚ) ∧
    (normalize ([2, -1] : List ℚ) =
        ([2, -1] : List ℚ).map (fun a => a * (98 / 100 / peak ([2, -1] : List ℚ))) ∧
      peak (normalize ([2, -1] : List ℚ)) = 98 / 100 ∧
      List.Forall₂ (fun a b => (0 < a ↔ 0 < b) ∧ (a < 0 ↔ b < 0) ∧ (a = 0 ↔ b = 0))
        ([2, -1] : List ℚ) (normalize ([2, -1] : List ℚ))) :=
  ⟨by decide, (loudness_normalizer_spec ([2, -1] : List ℚ)).1 (by decide)⟩

/-! ## Filter curve shape (C6) -/

/-- The quantity under the square root in the gain formula is at least 1
(the exponent `2n` is even, so the power is nonnegative for any `f`). -/
theorem one_le_sqrt_gain_arg (f : ℝ) :
    1 ≤ Real.sqrt (1 + (fc / f) ^ (2 * filterOrder)) := by
  have h : (0 : ℝ) ≤ (fc / f) ^ (2 * filterOrder) := by
    rw [pow_mul]
    exact pow_nonneg (sq_nonneg _) _
  calc (1 : ℝ) = Real.sqrt 1 := Real.sqrt_one.symm
    _ ≤ _ := Real.sqrt_le_sqrt (by linarith)

/-- The gain formula is always in `[0, 1]`. -/
theorem gainAt_mem_unit (f : ℝ) : 0 ≤ gainAt f ∧ gainAt f ≤ 1 := by
  have hs := one_le_sqrt_gain_arg f
  constructor
  · rw [gainAt]
    positivity
  · rw [gainAt, div_le_one (lt_of_lt_of_le one_pos hs)]
    exact hs

/-- The gain formula is monotone in frequency on positive frequencies. -/
theorem gainAt_mono {f1 f2 : ℝ} (h1 : 0 < f1) (h12 : f1 ≤ f2) :
    gainAt f1 ≤ gainAt f2 := by
  have h2 : 0 < f2 := lt_of_lt_of_le h1 h12
  have h300 : (0 : ℝ) < fc := by rw [fc]; norm_num
  have hq : fc / f2 ≤ fc / f1 := (div_le_div_iff_of_pos_left h300 h2 h1).mpr h12
  have hq0 : 0 ≤ fc / f2 := le_of_lt (div_pos h300 h2)
  have hpow : (fc / f2) ^ (2 * filterOrder) ≤ (fc / f1) ^ (2 * filterOrder) :=
    pow_le_pow_left₀ hq0 hq _
  have hs : Real.sqrt (1 + (fc / f2) ^ (2 * filterOrder)) ≤
      Real.sqrt (1 + (fc / f1) ^ (2 * filterOrder)) :=
    Real.sqrt_le_sqrt (by linarith)
  rw [gainAt, gainAt]
  exact one_div_le_one_div_of_le (lt_of_lt_of_le one_pos (one_le_sqrt_gain_arg f2)) hs

/-- The gain formula tends to 1 as the frequency grows. -/
theorem gainAt_tendsto_one :
    Filter.Tendsto gainAt Filter.atTop (nhds 1) := by
  have h1 : Filter.Tendsto (fun f : ℝ => fc / f) Filter.atTop (nhds 0) :=
    Filter.Tendsto.div_atTop tendsto_const_nhds Filter.tendsto_id
  have h2 : Filter.Tendsto (fun f : ℝ => 1 + (fc / f) ^ (2 * filterOrder))
      Filter.atTop (nhds 1) := by
    have hp := h1.pow (2 * filterOrder)
    have h0 : (0 : ℝ) ^ (2 * filterOrder) = 0 := by rw [filterOrder]; norm_num
    have := tendsto_const_nhds (x := (1 : ℝ)) (f := Filter.atTop (α := ℝ)) |>.add hp
    simpa [h0] using this
  have h3 : Filter.Tendsto (fun f : ℝ => Real.sqrt (1 + (fc / f) ^ (2 * filterOrder)))
      Filter.atTop (nhds 1) := by
    have hc := (Real.continuous_sqrt.tendsto 1).comp h2
    simpa using hc
  have h4 := h3.inv₀ one_ne_zero
  have heq : gainAt = fun f : ℝ => (Real.sqrt (1 + (fc / f) ^ (2 * filterOrder)))⁻¹ := by
    funext f
    rw [gainAt, one_div]
  rw [heq]
  simpa using h4

/-- C6: every gain of the computed filter curve lies in `[0, 1]`; the
gains are monotone non-decreasing in the bin index (bin frequency grows
with the index); the gain at the cutoff frequency `fc = 300` is exactly
`1/√2`; and the gain tends to 1 as frequency grows large. -/
theorem filter_curve_shape (N sr : ℕ) (hN : 0 < N) (hsr : 0 < sr)
    (k k1 k2 : ℕ) (hk : k1 ≤ k2) :
    (0 ≤ H N sr k ∧ H N sr k ≤ 1) ∧
    H N sr k1 ≤ H N sr k2 ∧
    gainAt 300 = 1 / Real.sqrt 2 ∧
    Filter.Tendsto gainAt Filter.atTop (nhds 1) := by
  have hbounds : ∀ m : ℕ, 0 ≤ H N sr m ∧ H N sr m ≤ 1 := by
    intro m
    rw [H]
    by_cases hm : m = 0
    · rw [if_pos hm]; exact ⟨le_refl 0, zero_le_one⟩
    · rw [if_neg hm]; exact gainAt_mem_unit _
  refine ⟨hbounds k, ?_, ?_, gainAt_tendsto_one⟩
  · by_cases h0 : k1 = 0
    · rw [h0]
      calc H N sr 0 = 0 := if_pos rfl
        _ ≤ H N sr k2 := (hbounds k2).1
    · have hk2 : k2 ≠ 0 := by
        intro h
        exact h0 (Nat.le_zero.mp (h ▸ hk))
      rw [H, if_neg h0, H, if_neg hk2]
      have hf1 : 0 < freqs N sr k1 := by
        rw [freqs]
        have : (0:ℝ) < (k1 : ℝ) := by exact_mod_cast Nat.pos_of_ne_zero h0
        have hsr' : (0:ℝ) < (sr : ℝ) := by exact_mod_cast hsr
        have hN' : (0:ℝ) < (N : ℝ) := by exact_mod_cast hN
        positivity
      have hf12 : freqs N sr k1 ≤ freqs N sr k2 := by
        rw [freqs, freqs]
        have h12 : (k1:ℝ) ≤ (k2:ℝ) := by exact_mod_cast hk
        have hsr' : (0:ℝ) ≤ (sr : ℝ) := by positivity
        have hN' : (0:ℝ) ≤ (N : ℝ) := by positivity
        gcongr
      exact gainAt_mono hf1 hf12
  · rw [gainAt, fc, filterOrder]
    norm_num

/-- Witness for C6 at bins 1 and 2 of an 8-sample, 1000 Hz buffer. -/
theorem filter_curve_shape_witness :
    (0 ≤ H 8 1000 1 ∧ H 8 1000 1 ≤ 1) ∧
    H 8 1000 1 ≤ H 8 1000 2 ∧
    gainAt 300 = 1 / Real.sqrt 2 ∧
    Filter.Tendsto gainAt Filter.atTop (nhds 1) :=
  filter_curve_shape 8 1000 (by decide) (by decide) 1 1 2 (by decide)

end EngineFFT

namespace EngineFFT

/-! ## Boundary smoother (C5, C9) -/

/-- The ramp `np.linspace` returns exactly `num` points. -/
theorem linspace_length {α : Type} [LinearOrderedField α] (a b : α) (num : ℕ) :
    (linspace a b num).length = num := by
  unfold linspace
  rw [List.length_map, List.length_range]

/-- Element `i` of the rising ramp `np.linspace(0, 1, fl)`. -/
theorem linspace01_getElem? {α : Type} [LinearOrderedField α] (fl i : ℕ) (h : i < fl) :
    (linspace (0 : α) 1 fl)[i]? = some ((i : α) / ((fl : α) - 1)) := by
  unfold linspace
  rw [List.getElem?_map, List.getElem?_range h, Option.map_some']
  congr 1
  ring

/-- Element `i` of the falling ramp `np.linspace(1, 0, fl)`. -/
theorem linspace10_getElem? {α : Type} [LinearOrderedField α] (fl i : ℕ) (h : i < fl) :
    (linspace (1 : α) 0 fl)[i]? = some (1 - (i : α) / ((fl : α) - 1)) := by
  unfold linspace
  rw [List.getElem?_map, List.getElem?_range h, Option.map_some']
  congr 1
  ring

/-- After the in-place fade-in product, sample `i` is the original sample
times the rising ramp gain (1 outside the fade-in window). -/
theorem fadeIn_applied_getElem? {α : Type} [LinearOrderedField α] (fl : ℕ) (y : List α)
    (h2 : fl ≤ y.length) (i : ℕ) (hi : i < y.length) :
    (List.zipWith (· * ·) (y.take fl) (linspace (0 : α) 1 fl) ++ y.drop fl)[i]? =
      some (y[i] * (if i < fl then (i : α) / ((fl : α) - 1) else 1)) := by
  have hziplen : (List.zipWith (· * ·) (y.take fl) (linspace (0 : α) 1 fl)).length = fl := by
    rw [List.length_zipWith, List.length_take, linspace_length, min_eq_left h2, min_self]
  by_cases hf : i < fl
  · rw [List.getElem?_append_left (by rw [hziplen]; exact hf)]
    rw [List.getElem?_zipWith, List.getElem?_take_of_lt hf,
      List.getElem?_eq_getElem hi, linspace01_getElem? fl i hf, if_pos hf]
  · rw [List.getElem?_append_right (by rw [hziplen]; omega)]
    rw [hziplen, List.getElem?_drop, show fl + (i - fl) = i from by omega,
      List.getElem?_eq_getElem hi, if_neg hf, mul_one]

/-- Core computation of the boundary smoother on a buffer at least as
long as the fade window: the fade-out product applied after the fade-in
product multiplies sample `i` by both ramp gains, compounding in the
overlap region. -/
theorem smooth_aux {α : Type} [LinearOrderedField α] (fl : ℕ) (y : List α)
    (h1 : 1 ≤ fl) (h2 : fl ≤ y.length) :
    mulSliceTailNeg fl (linspace (1 : α) 0 fl)
        (List.zipWith (· * ·) (y.take fl) (linspace (0 : α) 1 fl) ++ y.drop fl) =
      some ((List.range y.length).map (fun i =>
        y.getD i 0
          * (if i < fl then (i : α) / ((fl : α) - 1) else 1)
          * (if y.length - fl ≤ i then
                1 - ((i - (y.length - fl) : ℕ) : α) / ((fl : α) - 1)
              else 1))) := by
  have hfl0 : fl ≠ 0 := by omega
  set y1 := List.zipWith (· * ·) (y.take fl) (linspace (0 : α) 1 fl) ++ y.drop fl with hy1
  have hziplen : (List.zipWith (· * ·) (y.take fl) (linspace (0 : α) 1 fl)).length = fl := by
    rw [List.length_zipWith, List.length_take, linspace_length, min_eq_left h2, min_self]
  have hy1len : y1.length = y.length := by
    rw [hy1, List.length_append, hziplen, List.length_drop]
    omega
  simp only [mulSliceTailNeg, hfl0, if_false, hy1len, min_eq_left h2]
  rw [if_pos (by rw [List.length_drop, hy1len, linspace_length]; omega)]
  congr 1
  apply List.ext_getElem?
  intro i
  by_cases hi : i < y.length
  · have hR : ((List.range y.length).map (fun i =>
        y.getD i 0
          * (if i < fl then (i : α) / ((fl : α) - 1) else 1)
          * (if y.length - fl ≤ i then
                1 - ((i - (y.length - fl) : ℕ) : α) / ((fl : α) - 1)
              else 1)))[i]? =
        some (y.getD i 0
          * (if i < fl then (i : α) / ((fl : α) - 1) else 1)
          * (if y.length - fl ≤ i then
                1 - ((i - (y.length - fl) : ℕ) : α) / ((fl : α) - 1)
              else 1)) := by
      rw [List.getElem?_map, List.getElem?_range hi, Option.map_some']
    rw [hR]
    by_cases hs : i < y.length - fl
    · rw [List.getElem?_append_left
        (by rw [List.length_take, hy1len, min_eq_left (Nat.sub_le _ _)]; exact hs)]
      rw [List.getElem?_take_of_lt hs, hy1, fadeIn_applied_getElem? fl y h2 i hi]
      rw [List.getD_eq_getElem y 0 hi, if_neg (by omega : ¬ y.length - fl ≤ i), mul_one]
    · rw [List.getElem?_append_right
        (by rw [List.length_take, hy1len, min_eq_left (Nat.sub_le _ _)]; omega)]
      rw [show (y1.take (y.length - fl)).length = y.length - fl from by
        rw [List.length_take, hy1len, min_eq_left (Nat.sub_le _ _)]]
      rw [List.getElem?_zipWith, List.getElem?_drop,
        show (y.length - fl) + (i - (y.length - fl)) = i from by omega,
        hy1, fadeIn_applied_getElem? fl y h2 i hi,
        linspace10_getElem? fl (i - (y.length - fl)) (by omega)]
      rw [List.getD_eq_getElem y 0 hi, if_pos (by omega : y.length - fl ≤ i)]
  · rw [List.getElem?_eq_none (by
      rw [List.length_append, List.length_take, List.length_zipWith, List.length_drop,
        hy1len, linspace_length, min_eq_left (Nat.sub_le _ _)]
      omega)]
    rw [List.getElem?_eq_none (by rw [List.length_map, List.length_range]; omega)]

/-- The guard of the fade-in product holds when the window fits. -/
theorem mulSliceHead_fits {α : Type} [LinearOrderedField α] (fl : ℕ) (y : List α)
    (h2 : fl ≤ y.length) :
    mulSliceHead fl (linspace (0 : α) 1 fl) y =
      some (List.zipWith (· * ·) (y.take fl) (linspace (0 : α) 1 fl) ++ y.drop fl) := by
  have hcond : (y.take fl).length = (linspace (0 : α) 1 fl).length := by
    rw [List.length_take, linspace_length, min_eq_left h2]
  simp only [mulSliceHead, if_pos hcond]

/-- C5 fails as stated: at sample rate 1000 Hz the fade window is 3
samples, which exceeds the whole length of the one-sample buffer `[1]`;
the fade-in product `y[:3] *= fade_in` is then a numpy shape mismatch
(slice of length 1 against a ramp of length 3), i.e. an error rather
than an applied pair of multiplications. -/
theorem boundary_smoother_counterexample :
    boundarySmooth 1000 ([1] : List ℚ) = none := by decide

/-- C5 (amended): for every buffer at least as long as the (positive)
fade window `fade_len = int(sr * 0.003)`, the boundary smoother
multiplies the first `fade_len` samples by the rising ramp, then the
last `fade_len` samples by the falling ramp, compounding both gains in
the overlap when `fade_len` exceeds half the buffer length; if the
window is longer than the buffer itself the slice product is a shape
mismatch (see the counterexample), so the claim holds only up to
`fade_len ≤ length`. -/
theorem boundary_smoother_overlap {α : Type} [LinearOrderedField α]
    (sr : ℕ) (y : List α) (h1 : 1 ≤ fadeLen sr) (h2 : fadeLen sr ≤ y.length) :
    boundarySmooth sr y = some (fadeSpec sr y) := by
  simp only [boundarySmooth, mulSliceHead_fits (fadeLen sr) y h2]
  exact smooth_aux (fadeLen sr) y h1 h2

/-- Witness for C5's amended theorem: at 1000 Hz the 3-sample window
exceeds half of the 4-sample buffer `[1, 1, 1, 1]`, and both ramps apply. -/
theorem boundary_smoother_overlap_witness :
    1 ≤ fadeLen 1000 ∧ fadeLen 1000 ≤ ([1, 1, 1, 1] : List ℚ).length ∧
    boundarySmooth 1000 ([1, 1, 1, 1] : List ℚ) =
      some (fadeSpec 1000 ([1, 1, 1, 1] : List ℚ)) :=
  ⟨by decide, by decide,
   boundary_smoother_overlap 1000 ([1, 1, 1, 1] : List ℚ) (by decide) (by decide)⟩

/-- A zero-length fade window aborts: `y[:0] *= []` is a no-op, but
`y[-0:]` is the whole (nonempty) buffer and multiplying it by the empty
ramp is a numpy shape mismatch. -/
theorem boundarySmooth_fadeLen_zero {α : Type} [LinearOrderedField α] {sr : ℕ}
    (h : fadeLen sr = 0) (y : List α) (hy : y ≠ []) :
    boundarySmooth sr y = none := by
  have h0 : mulSliceHead (fadeLen sr) (linspace (0 : α) 1 (fadeLen sr)) y = some y := by
    rw [h]
    simp [mulSliceHead, linspace]
  have h1 : mulSliceTailNeg (fadeLen sr) (linspace (1 : α) 0 (fadeLen sr)) y = none := by
    rw [h]
    simp [mulSliceTailNeg, linspace, hy]
  simp only [boundarySmooth, h0, h1]

/-- The spectral round trip returns exactly as many samples as the
input had. -/
theorem pipelineY_length (sr : ℕ) (data : List ℤ) :
    (pipelineY sr data).length = data.length := by
  simp only [pipelineY, irfft, List.length_map, List.length_range]

/-- C9: for every nonempty buffer whose sample rate gives
`int(sr * 0.003) = 0` (i.e. `sr ≤ 333`), the boundary smoother does not
silently skip the fades: the fade-out slice `y[-0:]` is the whole
buffer, the product with the empty ramp is a shape-mismatch error, and
a full run on such input exits with status 1 and writes no output. -/
theorem fade_len_zero_aborts {α : Type} [LinearOrderedField α] (sr : ℕ) (y : List α)
    (hsr : sr ≤ 333) (hy : y ≠ []) :
    boundarySmooth sr y = none ∧
    ∀ (argv : List String) (data : List ℤ),
      3 ≤ argv.length → data ≠ [] →
      (mainEngine argv (.ok (sr, data))).written = none ∧
      (mainEngine argv (.ok (sr, data))).exit = 1 := by
  have hfl : fadeLen sr = 0 := by rw [fadeLen]; omega
  refine ⟨boundarySmooth_fadeLen_zero hfl y hy, ?_⟩
  intro argv data hargs hdata
  have h3 : ¬ argv.length < 3 := by omega
  have hplen : pipelineY sr data ≠ [] := by
    have hl := pipelineY_length sr data
    intro hnil
    rw [hnil] at hl
    exact hdata (List.length_eq_zero.mp hl.symm)
  have hb : boundarySmooth sr (pipelineY sr data) = none :=
    boundarySmooth_fadeLen_zero hfl _ hplen
  constructor <;> simp only [mainEngine, if_neg h3, hb]

/-- Witness for C9 at 100 Hz on the buffer `[1, 2]` and a concrete run. -/
theorem fade_len_zero_aborts_witness :
    boundarySmooth 100 ([1, 2] : List ℚ) = none ∧
    (mainEngine ["p", "i", "o"] (.ok (100, [5]))).written = none ∧
    (mainEngine ["p", "i", "o"] (.ok (100, [5]))).exit = 1 := by
  have h := fade_len_zero_aborts (α := ℚ) 100 [1, 2] (by decide) (by decide)
  exact ⟨h.1, h.2 ["p", "i", "o"] [5] (by decide) (by decide)⟩

end EngineFFT
